import Mathlib

/-!
Verification of the flowpipe node core (`flowpipe/node.py`) against its
natural-language specification.

The Python code is shallowly embedded: a `World` is a finite store of plugs
and nodes addressed by numeric ids (modelling Python object references); the
methods of `INode` from `node.py` become functions `World → ... → World`.
The `Plug` classes (`flowpipe/plug.py`) are not part of the sources under
review; the behaviour of their `value` / `is_dirty` property setters is
modelled from the specification (§4.1 / §4.3) and each such definition is
marked `Modelled from the spec`.
-/

namespace Flowpipe

/-- Plug identifiers: stand-ins for Python object references to plugs. -/
abbrev PlugId := Nat

/-- Node identifiers: stand-ins for Python object references to nodes. -/
abbrev NodeId := Nat

/-- Opaque plug payloads. The engine never inspects values, so an arbitrary
inhabited type with decidable equality suffices; `none` models Python's
`None` (the default value of a fresh plug). -/
abbrev Value := Option Int

/-- A plug: name, back-reference to its owning node, input/output role,
payload, dirty flag and connected plugs (spec §3, Plug data model). -/
structure Plug where
  name : String
  node : NodeId
  isInput : Bool
  value : Value
  is_dirty : Bool
  connections : List PlugId
  deriving Repr, DecidableEq

instance : Inhabited Plug := ⟨⟨"", 0, false, none, false, []⟩⟩

/-- A node as in `INode.__init__`: `name`, `identifier`, and the `inputs` /
`outputs` dicts mapping plug names to plugs (here: to plug ids). -/
structure INode where
  name : String
  identifier : String
  inputs : List (String × PlugId)
  outputs : List (String × PlugId)
  deriving Repr, DecidableEq

instance : Inhabited INode := ⟨⟨"", "", [], []⟩⟩

/-- The mutable heap: all live plugs and nodes, addressed by id. -/
structure World where
  plugs : List (PlugId × Plug)
  nodes : List (NodeId × INode)
  deriving Repr, DecidableEq

/-- Lookup in an association list (Python `d[k]` read, first match wins). -/
def alookup {κ ε : Type} [DecidableEq κ] : List (κ × ε) → κ → Option ε
  | [], _ => none
  | e :: es, k => if e.1 = k then some e.2 else alookup es k

/-- Point update of an association list, leaving its key spine unchanged. -/
def amodify {κ ε : Type} [DecidableEq κ] (l : List (κ × ε)) (k : κ) (f : ε → ε) :
    List (κ × ε) :=
  l.map (fun e => if e.1 = k then (e.1, f e.2) else e)

@[simp] theorem alookup_nil {κ ε : Type} [DecidableEq κ] (k : κ) :
    alookup ([] : List (κ × ε)) k = none := rfl

@[simp] theorem alookup_cons {κ ε : Type} [DecidableEq κ] (e : κ × ε)
    (es : List (κ × ε)) (k : κ) :
    alookup (e :: es) k = if e.1 = k then some e.2 else alookup es k := rfl

@[simp] theorem amodify_nil {κ ε : Type} [DecidableEq κ] (k : κ) (f : ε → ε) :
    amodify ([] : List (κ × ε)) k f = [] := rfl

@[simp] theorem amodify_cons {κ ε : Type} [DecidableEq κ] (e : κ × ε)
    (es : List (κ × ε)) (k : κ) (f : ε → ε) :
    amodify (e :: es) k f =
      (if e.1 = k then (e.1, f e.2) else e) :: amodify es k f := rfl

theorem alookup_amodify {κ ε : Type} [DecidableEq κ] (l : List (κ × ε))
    (k q : κ) (f : ε → ε) :
    alookup (amodify l k f) q =
      if q = k then (alookup l k).map f else alookup l q := by
  induction l with
  | nil => simp
  | cons e es ih =>
    by_cases hek : e.1 = k
    · by_cases hqk : q = k
      · subst hqk; simp [hek, ih]
      · have hkq : ¬ k = q := fun h => hqk h.symm
        simp [hek, ih, hqk, hkq]
    · by_cases heq : e.1 = q
      · have hqk : ¬ q = k := fun h => hek (heq.symm ▸ h)
        simp [hek, heq, hqk]
      · simp [hek, heq, ih]

theorem keys_amodify {κ ε : Type} [DecidableEq κ] (l : List (κ × ε))
    (k : κ) (f : ε → ε) :
    (amodify l k f).map Prod.fst = l.map Prod.fst := by
  induction l with
  | nil => rfl
  | cons e es ih =>
    by_cases hek : e.1 = k <;> simp [hek, ih]

theorem alookup_isSome_of_keys_eq {κ ε ε' : Type} [DecidableEq κ]
    {l : List (κ × ε)} {l' : List (κ × ε')} (h : l.map Prod.fst = l'.map Prod.fst)
    (k : κ) : (alookup l k).isSome = (alookup l' k).isSome := by
  induction l generalizing l' with
  | nil => cases l' with
    | nil => rfl
    | cons e' es' => simp at h
  | cons e es ih =>
    cases l' with
    | nil => simp at h
    | cons e' es' =>
      simp only [List.map_cons, List.cons.injEq] at h
      by_cases hk : e.1 = k
      · simp [hk, h.1 ▸ hk]
      · have : ¬ e'.1 = k := h.1 ▸ hk
        simp [hk, this, ih h.2]

/-- First-match lookup on an association list with nodup keys hits exactly
the entry that is present in the list. -/
theorem alookup_of_mem_nodup {κ ε : Type} [DecidableEq κ]
    {l : List (κ × ε)} (hnd : (l.map Prod.fst).Nodup) {e : κ × ε}
    (he : e ∈ l) : alookup l e.1 = some e.2 := by
  induction l with
  | nil => cases he
  | cons x xs ih =>
    simp only [List.map_cons, List.nodup_cons] at hnd
    rcases List.mem_cons.mp he with h | h
    · subst h; simp
    · have hx : ¬ x.1 = e.1 := by
        intro hcontra
        exact hnd.1 (hcontra ▸ List.mem_map_of_mem Prod.fst h)
      simp [hx, ih hnd.2 h]

namespace World

/-- Read a plug object out of the store (Python attribute access through an
object reference; the default is never reached on well-formed worlds). -/
def plugD (w : World) (pid : PlugId) : Plug :=
  (alookup w.plugs pid).getD default

/-- Read a node object out of the store. -/
def nodeD (w : World) (nid : NodeId) : INode :=
  (alookup w.nodes nid).getD default

/-- In-place mutation of one plug (Python attribute assignment). -/
def modifyPlug (w : World) (pid : PlugId) (f : Plug → Plug) : World :=
  { w with plugs := amodify w.plugs pid f }

/-- In-place mutation of one node. -/
def modifyNode (w : World) (nid : NodeId) (f : INode → INode) : World :=
  { w with nodes := amodify w.nodes nid f }

@[simp] theorem modifyPlug_nodes (w : World) (pid : PlugId) (f : Plug → Plug) :
    (w.modifyPlug pid f).nodes = w.nodes := rfl

@[simp] theorem modifyNode_plugs (w : World) (nid : NodeId) (f : INode → INode) :
    (w.modifyNode nid f).plugs = w.plugs := rfl

theorem plugD_modifyPlug (w : World) (pid q : PlugId) (f : Plug → Plug) :
    (w.modifyPlug pid f).plugD q =
      if q = pid then ((alookup w.plugs pid).map f).getD default
      else w.plugD q := by
  by_cases h : q = pid <;>
    simp [plugD, modifyPlug, alookup_amodify, h]

theorem plugD_modifyPlug_ne (w : World) {pid q : PlugId} (h : q ≠ pid)
    (f : Plug → Plug) : (w.modifyPlug pid f).plugD q = w.plugD q := by
  simp [plugD_modifyPlug, h]

theorem plugD_modifyPlug_self {w : World} {pid : PlugId} {p : Plug}
    (h : alookup w.plugs pid = some p) (f : Plug → Plug) :
    (w.modifyPlug pid f).plugD pid = f p := by
  simp [plugD_modifyPlug, h]

theorem spine_modifyPlug (w : World) (pid : PlugId) (f : Plug → Plug) :
    (w.modifyPlug pid f).plugs.map Prod.fst = w.plugs.map Prod.fst :=
  keys_amodify _ _ _

theorem nodeD_modifyNode (w : World) (nid m : NodeId) (f : INode → INode) :
    (w.modifyNode nid f).nodeD m =
      if m = nid then ((alookup w.nodes nid).map f).getD default
      else w.nodeD m := by
  by_cases h : m = nid <;>
    simp [nodeD, modifyNode, alookup_amodify, h]

end World

/-- Modelled from the spec: `plug.py` is not among the sources under review.
Writing `True` into a plug's `is_dirty` property: per §4.3 the owning node's
`on_input_plug_set_dirty` hook fires whenever an *input* plug *transitions*
to dirty (an already-dirty plug does not re-trigger), and the hook body —
the translation of `INode.on_input_plug_set_dirty` from `node.py` — marks
every plug connected to any of the owner's output plugs dirty in turn. The
recursion is bounded by `fuel`; every use in this file supplies fuel larger
than the store size, which the transition guard makes sufficient. -/
def setDirtyFuel : Nat → World → PlugId → World
  | 0, w, _ => w
  | fuel+1, w, pid =>
    match alookup w.plugs pid with
    | none => w
    | some p =>
      if p.is_dirty then w
      else
        let w1 := w.modifyPlug pid (fun q => { q with is_dirty := true })
        if p.isInput then
          match alookup w1.nodes p.node with
          | none => w1
          | some n =>
            n.outputs.foldl
              (fun acc op =>
                ((acc.plugD op.2).connections).foldl
                  (fun a cid => setDirtyFuel fuel a cid) acc)
              w1
        else w1

/-- Modelled from the spec: the `is_dirty` property setter of a plug
(`plug.is_dirty = status`). A `True` write triggers the transition cascade
above; a `False` write is a plain flag update (§4.3: the hook fires only on
a transition *to* dirty). -/
def Plug.setDirty (w : World) (pid : PlugId) (status : Bool) : World :=
  if status then setDirtyFuel (w.plugs.length + 1) w pid
  else w.modifyPlug pid (fun q => { q with is_dirty := false })

/-- Modelled from the spec (§4.1): the `InputPlug.value` setter — store the
payload, then mark the plug dirty, triggering the owner's hook. -/
def setInputValue (w : World) (pid : PlugId) (v : Value) : World :=
  let w1 := w.modifyPlug pid (fun q => { q with value := v })
  Plug.setDirty w1 pid true

/-- Modelled from the spec (§4.1): the `OutputPlug.value` setter — store the
payload, then push it into every connected plug's value (the connections of
an output plug are input plugs by the §3 invariant), marking each dirty; the
output plug itself is never marked dirty. -/
def setOutputValue (w : World) (pid : PlugId) (v : Value) : World :=
  let w1 := w.modifyPlug pid (fun q => { q with value := v })
  ((w1.plugD pid).connections).foldl (fun a cid => setInputValue a cid v) w1

/-- Errors of the embedding. `keyError` is Python's built-in `KeyError`
raised by dict access — the only failure `node.py` itself can produce;
`valueError` stands for an arbitrary exception raised inside the
caller-supplied `compute`. The remaining constructors embed the
specification's §7 error taxonomy (`ComputeError`, `UnknownOutputError`,
`SerializationError`) so that claims about it can be stated; no code path
in `node.py` produces them. -/
inductive PyError where
  | keyError (key : String)
  | valueError (code : Nat)
  | computeError (code : Nat)
  | unknownOutputError (key : String)
  | serializationError (code : Nat)
  deriving Repr, DecidableEq

instance {ε α : Type} [DecidableEq ε] [DecidableEq α] :
    DecidableEq (Except ε α)
  | .error e, .error f =>
    if h : e = f then .isTrue (congrArg Except.error h)
    else .isFalse (fun hc => h (Except.error.inj hc))
  | .error _, .ok _ => .isFalse (fun hc => Except.noConfusion hc)
  | .ok _, .error _ => .isFalse (fun hc => Except.noConfusion hc)
  | .ok x, .ok y =>
    if h : x = y then .isTrue (congrArg Except.ok h)
    else .isFalse (fun hc => h (Except.ok.inj hc))

/-- The name→value mapping handed to and returned from `compute`. -/
abbrev ValMap := List (String × Value)

/-- A caller-supplied `compute`: receives the input values as keyword
arguments (a name→value mapping), and either raises or returns a mapping —
or `None`, modelled as `none`. -/
abbrev Compute := ValMap → Except PyError (Option ValMap)

/-- Wire format of one plug, per spec §6: `{name, value}`. -/
structure PlugDoc where
  name : String
  value : Value
  deriving Repr, DecidableEq

/-- Wire format of a node, per spec §6 and `INode.serialize`. Fields are
optional: `none` models an absent key in the JSON-like dict, whose read
raises `KeyError`. -/
structure NodeDoc where
  module : Option String := none
  cls : Option String := none
  name : Option String := none
  identifier : Option String := none
  inputs : Option (List PlugDoc) := none
  outputs : Option (List PlugDoc) := none
  deriving Repr, DecidableEq

/-- Modelled from the spec (§6): `plug.serialize()` produces the PlugDoc
`{name, value}` (`plug.py` is not among the sources under review). -/
def Plug.serialize (p : Plug) : PlugDoc :=
  { name := p.name, value := p.value }

namespace INode

/-- Translation of the `INode.is_dirty` property (`node.py`): scan the
input plugs, returning true as soon as one is dirty. -/
def is_dirty (w : World) (n : INode) : Bool :=
  n.inputs.any (fun e => (w.plugD e.2).is_dirty)

/-- Translation of `INode.upstream_nodes` (`node.py`): collect the owning
node of every plug connected to any input plug, then de-duplicate
(`list(set(upstream_nodes))`). -/
def upstream_nodes (w : World) (n : INode) : List NodeId :=
  (n.inputs.foldl
    (fun acc e =>
      acc ++ (w.plugD e.2).connections.map (fun c => (w.plugD c).node))
    []).dedup

/-- Translation of `INode.downstream_nodes` (`node.py`): collect the owning
node of every plug connected to any output plug, then de-duplicate. -/
def downstream_nodes (w : World) (n : INode) : List NodeId :=
  (n.outputs.foldl
    (fun acc e =>
      acc ++ (w.plugD e.2).connections.map (fun c => (w.plugD c).node))
    []).dedup

/-- Translation of `INode.on_input_plug_set_dirty` (`node.py`): for every
output plug, write `True` into the `is_dirty` property of each connected
plug. The `input_plug` argument is unused, exactly as in the source. -/
def on_input_plug_set_dirty (w : World) (nid : NodeId)
    (_input_plug : PlugId) : World :=
  match alookup w.nodes nid with
  | none => w
  | some n =>
    n.outputs.foldl
      (fun acc op =>
        ((acc.plugD op.2).connections).foldl
          (fun a cid => Plug.setDirty a cid true) acc)
      w

/-- The input snapshot taken by `evaluate`:
`{name: plug.value for name, plug in self.inputs.items()}`. -/
def inputValues (w : World) (n : INode) : ValMap :=
  n.inputs.map (fun e => (e.1, (w.plugD e.2).value))

/-- The output write-back loop of `evaluate`:
`for name, value in outputs.items(): self.outputs[name].value = value`.
A name with no matching output plug raises `KeyError` (dict access),
keeping the writes already performed. -/
def writeOutputs (n : INode) : World → ValMap → Except (PyError × World) World
  | w, [] => .ok w
  | w, (nm, v) :: rest =>
    match alookup n.outputs nm with
    | none => .error (.keyError nm, w)
    | some oid => writeOutputs n (setOutputValue w oid v) rest

/-- The clean-up loop of `evaluate`:
`for input_ in self.inputs.values(): input_.is_dirty = False`. -/
def clearInputs (n : INode) (w : World) : World :=
  n.inputs.foldl (fun acc e => Plug.setDirty acc e.2 false) w

/-- Translation of `INode.evaluate` (`node.py`): snapshot the input values,
call the caller-supplied `compute` on them (`**inputs` keyword arguments
become the name→value association list), default a `None` or empty result
to the empty dict (`or dict()`), write each returned entry to the output
plug of the same name, set every input plug clean, and return the outputs.
An exception propagates to the caller, paired with the world as mutated so
far. The `LogObserver.push_message` call touches only the external logging
collaborator and no modelled state. -/
def evaluate (w : World) (n : INode) (compute : Compute) :
    Except PyError ValMap × World :=
  match compute (inputValues w n) with
  | .error e => (.error e, w)
  | .ok res =>
    let outputs := res.getD []
    match writeOutputs n w outputs with
    | .error (e, w1) => (.error e, w1)
    | .ok w1 => (.ok outputs, clearInputs n w1)

/-- Translation of `INode.serialize` (`node.py`): the document
`{module, cls, name, identifier, inputs, outputs}`, where `module` and
`cls` carry the Python runtime type attributes `self.__module__` and
`self.__class__.__name__`, passed in here as parameters. -/
def serialize (w : World) (n : INode) (module cls : String) : NodeDoc :=
  { module := some module
    cls := some cls
    name := some n.name
    identifier := some n.identifier
    inputs := some (n.inputs.map (fun e => (w.plugD e.2).serialize))
    outputs := some (n.outputs.map (fun e => (w.plugD e.2).serialize)) }

/-- The loop of `INode.deserialize`:
`for input_ in data['inputs']: self.inputs[input_['name']].value = input_['value']`.
The dict lookup `self.inputs[...]` raises `KeyError` when the node has no
input plug of the documented name. -/
def deserializeInputs (nid : NodeId) :
    World → List PlugDoc → Except (PyError × World) World
  | w, [] => .ok w
  | w, d :: rest =>
    match alookup (w.nodeD nid).inputs d.name with
    | none => .error (.keyError d.name, w)
    | some pid => deserializeInputs nid (setInputValue w pid d.value) rest

/-- Translation of `INode.deserialize` (`node.py`): overwrite `name` and
`identifier` from the document, then assign each documented input value
through the input plug's value setter. A missing key raises `KeyError`,
keeping the mutations already performed. -/
def deserialize (w : World) (nid : NodeId) (data : NodeDoc) :
    Except (PyError × World) World :=
  match data.name with
  | none => .error (.keyError "name", w)
  | some nm =>
    let w1 := w.modifyNode nid (fun n => { n with name := nm })
    match data.identifier with
    | none => .error (.keyError "identifier", w1)
    | some idf =>
      let w2 := w1.modifyNode nid (fun n => { n with identifier := idf })
      match data.inputs with
      | none => .error (.keyError "inputs", w2)
      | some docs => deserializeInputs nid w2 docs

end INode

/-! Frame infrastructure: what the heap operations leave untouched. -/

/-- Equality of everything in a plug except the dirty flag. -/
def Plug.coreEq (p q : Plug) : Prop :=
  p.name = q.name ∧ p.node = q.node ∧ p.isInput = q.isInput ∧
  p.value = q.value ∧ p.connections = q.connections

/-- Equality of everything in a plug except dirty flag and value. -/
def Plug.shapeEq (p q : Plug) : Prop :=
  p.name = q.name ∧ p.node = q.node ∧ p.isInput = q.isInput ∧
  p.connections = q.connections

theorem Plug.coreEq_refl (p : Plug) : Plug.coreEq p p :=
  ⟨rfl, rfl, rfl, rfl, rfl⟩

theorem Plug.coreEq_trans {p q r : Plug} (h1 : Plug.coreEq p q)
    (h2 : Plug.coreEq q r) : Plug.coreEq p r :=
  ⟨h1.1.trans h2.1, h1.2.1.trans h2.2.1, h1.2.2.1.trans h2.2.2.1,
   h1.2.2.2.1.trans h2.2.2.2.1, h1.2.2.2.2.trans h2.2.2.2.2⟩

theorem Plug.coreEq_shapeEq {p q : Plug} (h : Plug.coreEq p q) :
    Plug.shapeEq p q := ⟨h.1, h.2.1, h.2.2.1, h.2.2.2.2⟩

theorem Plug.shapeEq_refl (p : Plug) : Plug.shapeEq p p := ⟨rfl, rfl, rfl, rfl⟩

theorem Plug.shapeEq_trans {p q r : Plug} (h1 : Plug.shapeEq p q)
    (h2 : Plug.shapeEq q r) : Plug.shapeEq p r :=
  ⟨h1.1.trans h2.1, h1.2.1.trans h2.2.1, h1.2.2.1.trans h2.2.2.1,
   h1.2.2.2.trans h2.2.2.2⟩

/-- The step touched nothing but dirty flags. -/
def DirtyOnly (w w' : World) : Prop :=
  w'.nodes = w.nodes ∧ w'.plugs.map Prod.fst = w.plugs.map Prod.fst ∧
  ∀ q, Plug.coreEq (w'.plugD q) (w.plugD q)

/-- The step touched nothing but dirty flags, and never cleared one. -/
def DirtyStep (w w' : World) : Prop :=
  DirtyOnly w w' ∧
  ∀ q, (w.plugD q).is_dirty = true → (w'.plugD q).is_dirty = true

/-- The step touched nothing but dirty flags and values. -/
def ShapeOnly (w w' : World) : Prop :=
  w'.nodes = w.nodes ∧ w'.plugs.map Prod.fst = w.plugs.map Prod.fst ∧
  ∀ q, Plug.shapeEq (w'.plugD q) (w.plugD q)

theorem dirtyOnly_refl (w : World) : DirtyOnly w w :=
  ⟨rfl, rfl, fun q => Plug.coreEq_refl _⟩

theorem dirtyOnly_trans {a b c : World} (h1 : DirtyOnly a b)
    (h2 : DirtyOnly b c) : DirtyOnly a c :=
  ⟨h2.1.trans h1.1, h2.2.1.trans h1.2.1,
   fun q => Plug.coreEq_trans (h2.2.2 q) (h1.2.2 q)⟩

theorem dirtyStep_refl (w : World) : DirtyStep w w :=
  ⟨dirtyOnly_refl w, fun _ h => h⟩

theorem dirtyStep_trans {a b c : World} (h1 : DirtyStep a b)
    (h2 : DirtyStep b c) : DirtyStep a c :=
  ⟨dirtyOnly_trans h1.1 h2.1, fun q h => h2.2 q (h1.2 q h)⟩

theorem shapeOnly_refl (w : World) : ShapeOnly w w :=
  ⟨rfl, rfl, fun _ => Plug.shapeEq_refl _⟩

theorem shapeOnly_trans {a b c : World} (h1 : ShapeOnly a b)
    (h2 : ShapeOnly b c) : ShapeOnly a c :=
  ⟨h2.1.trans h1.1, h2.2.1.trans h1.2.1,
   fun q => Plug.shapeEq_trans (h2.2.2 q) (h1.2.2 q)⟩

theorem dirtyOnly_to_shapeOnly {a b : World} (h : DirtyOnly a b) : ShapeOnly a b :=
  ⟨h.1, h.2.1, fun q => Plug.coreEq_shapeEq (h.2.2 q)⟩

/-- Any transitive-reflexive relation preserved by each fold step is
preserved by the whole fold. -/
theorem foldl_rel {α : Type} {R : World → World → Prop}
    (hrefl : ∀ w, R w w)
    (htrans : ∀ {a b c : World}, R a b → R b c → R a c)
    {g : World → α → World} (hstep : ∀ w a, R w (g w a)) :
    ∀ (l : List α) (w : World), R w (l.foldl g w) := by
  intro l
  induction l with
  | nil => intro w; exact hrefl w
  | cons x xs ih => intro w; exact htrans (hstep w x) (ih (g w x))

theorem alookup_mem {κ ε : Type} [DecidableEq κ] :
    ∀ {l : List (κ × ε)} {k : κ} {v : ε},
      alookup l k = some v → (k, v) ∈ l := by
  intro l
  induction l with
  | nil => intro k v h; simp at h
  | cons e es ih =>
    intro k v h
    by_cases hk : e.1 = k
    · simp [hk] at h
      exact List.mem_cons.mpr (Or.inl (by cases e; simp_all))
    · simp [hk] at h
      exact List.mem_cons.mpr (Or.inr (ih h))

theorem alookup_eq_none_of_not_mem {κ ε : Type} [DecidableEq κ]
    {l : List (κ × ε)} {k : κ} (h : k ∉ l.map Prod.fst) :
    alookup l k = none := by
  induction l with
  | nil => rfl
  | cons e es ih =>
    simp only [List.map_cons, List.mem_cons] at h
    push_neg at h
    have h1 : ¬ e.1 = k := fun hc => h.1 hc.symm
    simp [h1, ih h.2]

theorem World.nodeD_congr {w w' : World} (h : w'.nodes = w.nodes) (m : NodeId) :
    w'.nodeD m = w.nodeD m := by
  simp [World.nodeD, h]

theorem alookup_isSome_of_spine {w w' : World}
    (h : w'.plugs.map Prod.fst = w.plugs.map Prod.fst) (q : PlugId) :
    (alookup w'.plugs q).isSome = (alookup w.plugs q).isSome :=
  alookup_isSome_of_keys_eq h q

/-! Effect of the primitive heap writes. -/

theorem dirtyStep_modifyTrue (w : World) (pid : PlugId) :
    DirtyStep w (w.modifyPlug pid (fun q => { q with is_dirty := true })) := by
  refine ⟨⟨rfl, World.spine_modifyPlug w pid _, ?_⟩, ?_⟩
  · intro q
    rw [World.plugD_modifyPlug]
    by_cases h : q = pid
    · subst h
      cases halo : alookup w.plugs q with
      | none => simp [World.plugD, halo]; exact Plug.coreEq_refl _
      | some p => simp [World.plugD, halo]; exact ⟨rfl, rfl, rfl, rfl, rfl⟩
    · simp [h]; exact Plug.coreEq_refl _
  · intro q h
    rw [World.plugD_modifyPlug]
    by_cases hq : q = pid
    · subst hq
      cases halo : alookup w.plugs q with
      | none => simpa [World.plugD, halo] using h
      | some p => simp [World.plugD, halo]
    · simpa [hq] using h

theorem dirtyOnly_modifyFalse (w : World) (pid : PlugId) :
    DirtyOnly w (w.modifyPlug pid (fun q => { q with is_dirty := false })) := by
  refine ⟨rfl, World.spine_modifyPlug w pid _, ?_⟩
  intro q
  rw [World.plugD_modifyPlug]
  by_cases h : q = pid
  · subst h
    cases halo : alookup w.plugs q with
    | none => simp [World.plugD, halo]; exact Plug.coreEq_refl _
    | some p => simp [World.plugD, halo]; exact ⟨rfl, rfl, rfl, rfl, rfl⟩
  · simp [h]; exact Plug.coreEq_refl _

theorem shapeOnly_modifyValue (w : World) (pid : PlugId) (v : Value) :
    ShapeOnly w (w.modifyPlug pid (fun q => { q with value := v })) := by
  refine ⟨rfl, World.spine_modifyPlug w pid _, ?_⟩
  intro q
  rw [World.plugD_modifyPlug]
  by_cases h : q = pid
  · subst h
    cases halo : alookup w.plugs q with
    | none => simp [World.plugD, halo]; exact Plug.shapeEq_refl _
    | some p => simp [World.plugD, halo]; exact ⟨rfl, rfl, rfl, rfl⟩
  · simp [h]; exact Plug.shapeEq_refl _

/-! The dirty cascade only raises dirty flags and changes nothing else. -/

theorem dirtyStep_setDirtyFuel :
    ∀ (fuel : Nat) (w : World) (pid : PlugId),
      DirtyStep w (setDirtyFuel fuel w pid) := by
  intro fuel
  induction fuel with
  | zero => intro w pid; exact dirtyStep_refl w
  | succ f ih =>
    intro w pid
    rw [setDirtyFuel]
    cases halo : alookup w.plugs pid with
    | none => exact dirtyStep_refl w
    | some p =>
      by_cases hd : p.is_dirty
      · simp [hd]; exact dirtyStep_refl w
      · simp only [hd, if_false, Bool.false_eq_true]
        by_cases hin : p.isInput
        · simp only [hin, if_true]
          cases hn : alookup (w.modifyPlug pid
              (fun q => { q with is_dirty := true })).nodes p.node with
          | none => exact dirtyStep_modifyTrue w pid
          | some n =>
            refine dirtyStep_trans (dirtyStep_modifyTrue w pid) ?_
            exact foldl_rel dirtyStep_refl dirtyStep_trans
              (fun w' op => foldl_rel dirtyStep_refl dirtyStep_trans
                (fun a cid => ih a cid) _ w') _ _
        · simp only [hin, if_false, Bool.false_eq_true]
          exact dirtyStep_modifyTrue w pid

theorem setDirtyFuel_dirty_self (fuel : Nat) {w : World} {pid : PlugId}
    {p : Plug} (h : alookup w.plugs pid = some p) :
    ((setDirtyFuel (fuel + 1) w pid).plugD pid).is_dirty = true := by
  rw [setDirtyFuel, h]
  by_cases hd : p.is_dirty
  · simpa [hd, World.plugD, h] using hd
  · simp only [hd, if_false, Bool.false_eq_true]
    have hself : ((w.modifyPlug pid
        (fun q => { q with is_dirty := true })).plugD pid).is_dirty = true := by
      rw [World.plugD_modifyPlug_self h]
    by_cases hin : p.isInput
    · simp only [hin, if_true]
      cases hn : alookup (w.modifyPlug pid
          (fun q => { q with is_dirty := true })).nodes p.node with
      | none => exact hself
      | some n =>
        exact (foldl_rel dirtyStep_refl dirtyStep_trans
          (fun w' op => foldl_rel dirtyStep_refl dirtyStep_trans
            (fun a cid => dirtyStep_setDirtyFuel fuel a cid)
            ((w'.plugD op.2).connections) w')
          n.outputs
          (w.modifyPlug pid (fun q => { q with is_dirty := true }))).2 pid hself
    · simp only [hin, if_false, Bool.false_eq_true]
      exact hself

theorem dirtyStep_setDirty_true (w : World) (pid : PlugId) :
    DirtyStep w (Plug.setDirty w pid true) := by
  rw [Plug.setDirty]
  simp only [if_true]
  exact dirtyStep_setDirtyFuel _ w pid

theorem setDirty_true_self {w : World} {pid : PlugId} {p : Plug}
    (h : alookup w.plugs pid = some p) :
    ((Plug.setDirty w pid true).plugD pid).is_dirty = true := by
  rw [Plug.setDirty]
  simp only [if_true]
  exact setDirtyFuel_dirty_self _ h

theorem dirtyOnly_setDirty_false (w : World) (pid : PlugId) :
    DirtyOnly w (Plug.setDirty w pid false) := by
  rw [Plug.setDirty]
  simp only [Bool.false_eq_true, if_false]
  exact dirtyOnly_modifyFalse w pid

theorem setDirty_false_self (w : World) (pid : PlugId) :
    ((Plug.setDirty w pid false).plugD pid).is_dirty = false := by
  rw [Plug.setDirty]
  simp only [Bool.false_eq_true, if_false]
  rw [World.plugD_modifyPlug]
  cases halo : alookup w.plugs pid with
  | none => simp [World.plugD, halo]; rfl
  | some p => simp

theorem setDirty_false_pres_false {w : World} {q : PlugId}
    (h : (w.plugD q).is_dirty = false) (pid : PlugId) :
    ((Plug.setDirty w pid false).plugD q).is_dirty = false := by
  by_cases hq : q = pid
  · subst hq; exact setDirty_false_self w q
  · rw [Plug.setDirty]
    simp only [Bool.false_eq_true, if_false]
    rw [World.plugD_modifyPlug_ne w hq]
    exact h

/-! Effect of the value setters. -/

theorem shapeOnly_setInputValue (w : World) (pid : PlugId) (v : Value) :
    ShapeOnly w (setInputValue w pid v) :=
  shapeOnly_trans (shapeOnly_modifyValue w pid v)
    (dirtyOnly_to_shapeOnly (dirtyStep_setDirty_true _ pid).1)

theorem setInputValue_value_self {w : World} {pid : PlugId} {p : Plug}
    (h : alookup w.plugs pid = some p) (v : Value) :
    ((setInputValue w pid v).plugD pid).value = v := by
  simp only [setInputValue]
  have h2 := ((dirtyStep_setDirty_true
    (w.modifyPlug pid (fun q => { q with value := v })) pid).1.2.2 pid).2.2.2.1
  rw [h2, World.plugD_modifyPlug_self h]

theorem setInputValue_value_ne {w : World} {q pid : PlugId} (hne : q ≠ pid)
    (v : Value) :
    ((setInputValue w pid v).plugD q).value = (w.plugD q).value := by
  simp only [setInputValue]
  have h2 := ((dirtyStep_setDirty_true
    (w.modifyPlug pid (fun r => { r with value := v })) pid).1.2.2 q).2.2.2.1
  rw [h2, World.plugD_modifyPlug_ne w hne]

theorem foldl_setInputValue_keep {v : Value} {pid : PlugId} :
    ∀ (l : List PlugId) (w : World),
      (w.plugD pid).value = v → (alookup w.plugs pid).isSome →
      ((l.foldl (fun a cid => setInputValue a cid v) w).plugD pid).value = v := by
  intro l
  induction l with
  | nil => intro w h _; exact h
  | cons c cs ih =>
    intro w h hs
    have hsome : (alookup (setInputValue w c v).plugs pid).isSome := by
      rw [alookup_isSome_of_spine (shapeOnly_setInputValue w c v).2.1 pid]
      exact hs
    by_cases hc : pid = c
    · subst hc
      obtain ⟨p, hp⟩ := Option.isSome_iff_exists.mp hs
      exact ih _ (setInputValue_value_self hp v) hsome
    · exact ih _ ((setInputValue_value_ne hc v).trans h) hsome

theorem foldl_setInputValue_other {v : Value} {q : PlugId} :
    ∀ (l : List PlugId) (w : World), q ∉ l →
      ((l.foldl (fun a cid => setInputValue a cid v) w).plugD q).value =
        (w.plugD q).value := by
  intro l
  induction l with
  | nil => intro w _; rfl
  | cons c cs ih =>
    intro w hq
    have hqc : q ≠ c := fun h => hq (h ▸ List.mem_cons_self c cs)
    have hqs : q ∉ cs := fun h => hq (List.mem_cons_of_mem c h)
    exact (ih _ hqs).trans (setInputValue_value_ne hqc v)

theorem shapeOnly_setOutputValue (w : World) (pid : PlugId) (v : Value) :
    ShapeOnly w (setOutputValue w pid v) := by
  simp only [setOutputValue]
  exact shapeOnly_trans (shapeOnly_modifyValue w pid v)
    (foldl_rel shapeOnly_refl shapeOnly_trans
      (fun a cid => shapeOnly_setInputValue a cid v) _ _)

theorem setOutputValue_value_self {w : World} {pid : PlugId} {p : Plug}
    (h : alookup w.plugs pid = some p) (v : Value) :
    ((setOutputValue w pid v).plugD pid).value = v := by
  simp only [setOutputValue]
  apply foldl_setInputValue_keep
  · rw [World.plugD_modifyPlug_self h]
  · rw [alookup_isSome_of_spine (shapeOnly_modifyValue w pid v).2.1 pid]
    simp [h]

theorem setOutputValue_value_other {w : World} {q pid : PlugId}
    (hne : q ≠ pid) (hnc : q ∉ (w.plugD pid).connections) (v : Value) :
    ((setOutputValue w pid v).plugD q).value = (w.plugD q).value := by
  simp only [setOutputValue]
  have hconn : ((w.modifyPlug pid
      (fun r => { r with value := v })).plugD pid).connections =
      (w.plugD pid).connections :=
    ((shapeOnly_modifyValue w pid v).2.2 pid).2.2.2
  rw [hconn]
  exact (foldl_setInputValue_other _ _ hnc).trans
    (by rw [World.plugD_modifyPlug_ne w hne])

/-! Well-formedness of a node's output side, as Python object semantics
guarantees it: the `outputs` dict has distinct names (dict keys) and
distinct plug objects, all live; output plugs are outputs; their
connections lead to input plugs (spec §3 invariant). -/

def NodeWF (w : World) (n : INode) : Prop :=
  (n.outputs.map Prod.fst).Nodup ∧
  (n.outputs.map Prod.snd).Nodup ∧
  (∀ e ∈ n.outputs, (alookup w.plugs e.2).isSome) ∧
  (∀ e ∈ n.outputs, (w.plugD e.2).isInput = false) ∧
  (∀ e ∈ n.outputs, ∀ cid ∈ (w.plugD e.2).connections,
    (w.plugD cid).isInput = true)

instance (w : World) (n : INode) : Decidable (NodeWF w n) := by
  unfold NodeWF; infer_instance

theorem NodeWF.of_shapeOnly {w w' : World} {n : INode} (hso : ShapeOnly w w')
    (h : NodeWF w n) : NodeWF w' n := by
  refine ⟨h.1, h.2.1, ?_, ?_, ?_⟩
  · intro e he
    rw [alookup_isSome_of_spine hso.2.1]
    exact h.2.2.1 e he
  · intro e he
    rw [(hso.2.2 e.2).2.2.1]
    exact h.2.2.2.1 e he
  · intro e he cid hc
    rw [(hso.2.2 cid).2.2.1]
    refine h.2.2.2.2 e he cid ?_
    rw [← (hso.2.2 e.2).2.2.2]
    exact hc

theorem NodeWF.conn_ne_out {w : World} {n : INode} (h : NodeWF w n)
    {e e' : String × PlugId} (he : e ∈ n.outputs) (he' : e' ∈ n.outputs)
    {cid : PlugId} (hc : cid ∈ (w.plugD e.2).connections) : cid ≠ e'.2 := by
  intro hcontra
  have h1 := h.2.2.2.2 e he cid hc
  have h2 := h.2.2.2.1 e' he'
  rw [hcontra, h2] at h1
  cases h1

/-! The output write-back loop. -/

theorem writeOutputs_ok (n : INode) :
    ∀ (outs : ValMap) (w : World),
      (∀ e ∈ outs, (alookup n.outputs e.1).isSome) →
      ∃ w', INode.writeOutputs n w outs = .ok w' := by
  intro outs
  induction outs with
  | nil => intro w _; exact ⟨w, rfl⟩
  | cons x xs ih =>
    intro w hf
    obtain ⟨nm, v⟩ := x
    obtain ⟨oid, hoid⟩ := Option.isSome_iff_exists.mp
      (hf (nm, v) (List.mem_cons_self _ _))
    obtain ⟨w', hw'⟩ := ih (setOutputValue w oid v)
      (fun e he => hf e (List.mem_cons_of_mem _ he))
    exact ⟨w', by rw [INode.writeOutputs, hoid]; exact hw'⟩

theorem writeOutputs_shapeOnly (n : INode) :
    ∀ (outs : ValMap) (w w' : World),
      INode.writeOutputs n w outs = .ok w' → ShapeOnly w w' := by
  intro outs
  induction outs with
  | nil =>
    intro w w' h
    rw [INode.writeOutputs] at h
    cases h
    exact shapeOnly_refl w
  | cons x xs ih =>
    intro w w' h
    obtain ⟨nm, v⟩ := x
    rw [INode.writeOutputs] at h
    cases hoid : alookup n.outputs nm with
    | none => rw [hoid] at h; cases h
    | some oid =>
      rw [hoid] at h
      exact shapeOnly_trans (shapeOnly_setOutputValue w oid v) (ih _ _ h)

theorem writeOutputs_err (n : INode) :
    ∀ (pre : ValMap) (k : String) (v : Value) (rest : ValMap) (w : World),
      (∀ e ∈ pre, (alookup n.outputs e.1).isSome) →
      alookup n.outputs k = none →
      ∃ w₂, INode.writeOutputs n w (pre ++ (k, v) :: rest) =
        .error (.keyError k, w₂) := by
  intro pre
  induction pre with
  | nil =>
    intro k v rest w _ hk
    exact ⟨w, by rw [List.nil_append, INode.writeOutputs, hk]⟩
  | cons x xs ih =>
    intro k v rest w hf hk
    obtain ⟨nm, v0⟩ := x
    obtain ⟨oid, hoid⟩ := Option.isSome_iff_exists.mp
      (hf (nm, v0) (List.mem_cons_self _ _))
    obtain ⟨w₂, hw₂⟩ := ih k v rest (setOutputValue w oid v0)
      (fun e he => hf e (List.mem_cons_of_mem _ he)) hk
    exact ⟨w₂, by rw [List.cons_append, INode.writeOutputs, hoid]; exact hw₂⟩

theorem writeOutputs_values (n : INode) :
    ∀ (outs : ValMap) (w w' : World),
      INode.writeOutputs n w outs = .ok w' →
      NodeWF w n →
      (outs.map Prod.fst).Nodup →
      ∀ e ∈ n.outputs,
        (∀ v, alookup outs e.1 = some v → (w'.plugD e.2).value = v) ∧
        (alookup outs e.1 = none →
          (w'.plugD e.2).value = (w.plugD e.2).value) := by
  intro outs
  induction outs with
  | nil =>
    intro w w' h _ _ e _
    rw [INode.writeOutputs] at h
    cases h
    refine ⟨fun v hv => ?_, fun _ => rfl⟩
    simp at hv
  | cons x xs ih =>
    intro w w' h hWF hnd e he
    obtain ⟨nm, v0⟩ := x
    rw [INode.writeOutputs] at h
    cases hoid : alookup n.outputs nm with
    | none => rw [hoid] at h; cases h
    | some oid =>
      rw [hoid] at h
      simp only [List.map_cons, List.nodup_cons] at hnd
      have hWF2 : NodeWF (setOutputValue w oid v0) n :=
        hWF.of_shapeOnly (shapeOnly_setOutputValue w oid v0)
      have hmem : (nm, oid) ∈ n.outputs := alookup_mem hoid
      have ihe := ih (setOutputValue w oid v0) w' h hWF2 hnd.2 e he
      by_cases hname : e.1 = nm
      · -- the head entry writes exactly this output plug
        have heq : oid = e.2 := by
          have h3 := alookup_of_mem_nodup hWF.1 he
          rw [hname, hoid] at h3
          exact Option.some.inj h3
        have hrest : alookup xs e.1 = none :=
          alookup_eq_none_of_not_mem (hname ▸ hnd.1)
        obtain ⟨p, hp⟩ := Option.isSome_iff_exists.mp (hWF.2.2.1 e he)
        have hval : ((setOutputValue w oid v0).plugD e.2).value = v0 := by
          rw [← heq]
          exact setOutputValue_value_self (heq ▸ hp) v0
        constructor
        · intro v hv
          rw [alookup_cons] at hv
          rw [if_pos hname.symm] at hv
          cases hv
          exact (ihe.2 hrest).trans hval
        · intro hnone
          rw [alookup_cons] at hnone
          rw [if_pos hname.symm] at hnone
          cases hnone
      · -- the head entry targets some other output plug
        have hne2 : e.2 ≠ oid := by
          intro hcontra
          have : e ≠ (nm, oid) := fun hc => hname (by rw [hc])
          exact this (List.inj_on_of_nodup_map hWF.2.1 he hmem
            (by simpa using hcontra))
        have hnc : e.2 ∉ (w.plugD oid).connections := fun hcmem =>
          (hWF.conn_ne_out hmem he hcmem) rfl
        have hstep : ((setOutputValue w oid v0).plugD e.2).value =
            (w.plugD e.2).value :=
          setOutputValue_value_other hne2 hnc v0
        constructor
        · intro v hv
          rw [alookup_cons] at hv
          rw [if_neg (fun h => hname h.symm)] at hv
          exact ihe.1 v hv
        · intro hnone
          rw [alookup_cons] at hnone
          rw [if_neg (fun h => hname h.symm)] at hnone
          exact (ihe.2 hnone).trans hstep

/-! The clean-up loop of `evaluate`. -/

theorem dirtyOnly_clearInputs (n : INode) (w : World) :
    DirtyOnly w (INode.clearInputs n w) := by
  rw [INode.clearInputs]
  exact foldl_rel dirtyOnly_refl dirtyOnly_trans
    (fun a e => dirtyOnly_setDirty_false a e.2) n.inputs w

theorem foldl_setDirty_false_pres {q : PlugId} :
    ∀ (l : List (String × PlugId)) (w : World),
      (w.plugD q).is_dirty = false →
      ((l.foldl (fun acc x => Plug.setDirty acc x.2 false) w).plugD q).is_dirty
        = false := by
  intro l
  induction l with
  | nil => intro w h; exact h
  | cons x xs ih =>
    intro w h
    exact ih _ (setDirty_false_pres_false h x.2)

theorem clearInputs_clean (n : INode) (w : World) :
    ∀ e ∈ n.inputs, ((INode.clearInputs n w).plugD e.2).is_dirty = false := by
  have haux : ∀ (l : List (String × PlugId)) (w : World)
      (e : String × PlugId), e ∈ l →
      ((l.foldl (fun acc x => Plug.setDirty acc x.2 false) w).plugD e.2).is_dirty
        = false := by
    intro l
    induction l with
    | nil => intro w e he; cases he
    | cons x xs ih =>
      intro w e he
      rcases List.mem_cons.mp he with h | h
      · subst h
        exact foldl_setDirty_false_pres xs _ (setDirty_false_self w e.2)
      · exact ih _ e h
  intro e he
  rw [INode.clearInputs]
  exact haux n.inputs w e he

/-! The dirty-propagation hook reaches every directly connected plug. -/

theorem foldl_setDirty_true_sets {q : PlugId} :
    ∀ (l : List PlugId) (w : World), q ∈ l → (alookup w.plugs q).isSome →
      ((l.foldl (fun a cid => Plug.setDirty a cid true) w).plugD q).is_dirty
        = true := by
  intro l
  induction l with
  | nil => intro w h _; cases h
  | cons c cs ih =>
    intro w hmem hs
    by_cases hc : c = q
    · subst hc
      obtain ⟨p, hp⟩ := Option.isSome_iff_exists.mp hs
      have h2 := foldl_rel dirtyStep_refl dirtyStep_trans
        (fun a cid => dirtyStep_setDirty_true a cid) cs (Plug.setDirty w c true)
      exact h2.2 c (setDirty_true_self hp)
    · rcases List.mem_cons.mp hmem with h | h
      · exact absurd h.symm hc
      · have hs2 : (alookup (Plug.setDirty w c true).plugs q).isSome := by
          rw [alookup_isSome_of_spine (dirtyStep_setDirty_true w c).1.2.1 q]
          exact hs
        exact ih _ h hs2

theorem dirtyStep_hookFold :
    ∀ (l : List (String × PlugId)) (w : World),
      DirtyStep w (l.foldl (fun acc op => ((acc.plugD op.2).connections).foldl
        (fun a cid => Plug.setDirty a cid true) acc) w) :=
  fun l w => foldl_rel dirtyStep_refl dirtyStep_trans
    (fun w' op => foldl_rel dirtyStep_refl dirtyStep_trans
      (fun a cid => dirtyStep_setDirty_true a cid)
      ((w'.plugD op.2).connections) w') l w

theorem hookFold_sets {q : PlugId} :
    ∀ (l : List (String × PlugId)) (w : World),
      (∃ e ∈ l, q ∈ (w.plugD e.2).connections) →
      (alookup w.plugs q).isSome →
      ((l.foldl (fun acc op => ((acc.plugD op.2).connections).foldl
          (fun a cid => Plug.setDirty a cid true) acc) w).plugD q).is_dirty
        = true := by
  intro l
  induction l with
  | nil => intro w h _; obtain ⟨e, he, _⟩ := h; cases he
  | cons x xs ih =>
    intro w hex hs
    obtain ⟨e, he, hq⟩ := hex
    have hstep : DirtyStep w (((w.plugD x.2).connections).foldl
        (fun a cid => Plug.setDirty a cid true) w) :=
      foldl_rel dirtyStep_refl dirtyStep_trans
        (fun a cid => dirtyStep_setDirty_true a cid) _ w
    rcases List.mem_cons.mp he with hhead | htail
    · subst hhead
      have h1 : ((((w.plugD e.2).connections).foldl
          (fun a cid => Plug.setDirty a cid true) w).plugD q).is_dirty = true :=
        foldl_setDirty_true_sets _ w hq hs
      exact (dirtyStep_hookFold xs _).2 q h1
    · have hs2 : (alookup (((w.plugD x.2).connections).foldl
          (fun a cid => Plug.setDirty a cid true) w).plugs q).isSome := by
        rw [alookup_isSome_of_spine hstep.1.2.1 q]; exact hs
      have hconn : q ∈ ((((w.plugD x.2).connections).foldl
          (fun a cid => Plug.setDirty a cid true) w).plugD e.2).connections := by
        rw [(hstep.1.2.2 e.2).2.2.2.2]; exact hq
      exact ih _ ⟨e, htail, hconn⟩ hs2

/-! The input-assignment loop of `deserialize`. -/

theorem nodes_setInputValue (w : World) (pid : PlugId) (v : Value) :
    (setInputValue w pid v).nodes = w.nodes :=
  (shapeOnly_setInputValue w pid v).1

theorem deserializeInputs_spec (nid : NodeId) :
    ∀ (docs : List PlugDoc) (w : World),
      (∀ d ∈ docs, (alookup (w.nodeD nid).inputs d.name).isSome) →
      (∀ d ∈ docs, ∀ pid, alookup (w.nodeD nid).inputs d.name = some pid →
        (alookup w.plugs pid).isSome) →
      (docs.map PlugDoc.name).Nodup →
      ((w.nodeD nid).inputs.map Prod.snd).Nodup →
      ∃ w', INode.deserializeInputs nid w docs = .ok w' ∧ ShapeOnly w w' ∧
        (∀ q, (∀ d ∈ docs, ∀ pid,
            alookup (w.nodeD nid).inputs d.name = some pid → pid ≠ q) →
          (w'.plugD q).value = (w.plugD q).value) ∧
        (∀ d ∈ docs, ∀ pid, alookup (w.nodeD nid).inputs d.name = some pid →
          (w'.plugD pid).value = d.value) := by
  intro docs
  induction docs with
  | nil =>
    intro w _ _ _ _
    exact ⟨w, rfl, shapeOnly_refl w, fun q _ => rfl, fun d hd => by cases hd⟩
  | cons d ds ih =>
    intro w hf hp hnd hdictnd
    obtain ⟨pid0, hpid0⟩ := Option.isSome_iff_exists.mp
      (hf d (List.mem_cons_self _ _))
    have hpres0 : (alookup w.plugs pid0).isSome :=
      hp d (List.mem_cons_self _ _) pid0 hpid0
    obtain ⟨p0, hp0⟩ := Option.isSome_iff_exists.mp hpres0
    have hso2 : ShapeOnly w (setInputValue w pid0 d.value) :=
      shapeOnly_setInputValue w pid0 d.value
    have hdict : (setInputValue w pid0 d.value).nodeD nid = w.nodeD nid :=
      World.nodeD_congr (nodes_setInputValue w pid0 d.value) nid
    simp only [List.map_cons, List.nodup_cons] at hnd
    obtain ⟨w', hok, hso', huntgt, htgt⟩ := ih (setInputValue w pid0 d.value)
      (fun d' hd' => by rw [hdict]; exact hf d' (List.mem_cons_of_mem _ hd'))
      (fun d' hd' pid hpid => by
        rw [alookup_isSome_of_spine hso2.2.1]
        rw [hdict] at hpid
        exact hp d' (List.mem_cons_of_mem _ hd') pid hpid)
      hnd.2
      (by rw [hdict]; exact hdictnd)
    refine ⟨w', ?_, shapeOnly_trans hso2 hso', ?_, ?_⟩
    · rw [INode.deserializeInputs, hpid0]
      exact hok
    · intro q hq
      have hne : pid0 ≠ q := hq d (List.mem_cons_self _ _) pid0 hpid0
      have h1 := huntgt q (fun d' hd' pid hpid => by
        rw [hdict] at hpid
        exact hq d' (List.mem_cons_of_mem _ hd') pid hpid)
      exact h1.trans (setInputValue_value_ne (Ne.symm hne) d.value)
    · intro d' hd' pid hpid
      rcases List.mem_cons.mp hd' with hhead | htail
      · rw [hhead] at hpid ⊢
        rw [hpid0] at hpid
        cases hpid
        have hval0 : ((setInputValue w pid0 d.value).plugD pid0).value =
            d.value := setInputValue_value_self hp0 d.value
        have hpres : ∀ d'' ∈ ds, ∀ pid'',
            alookup ((setInputValue w pid0 d.value).nodeD nid).inputs d''.name
              = some pid'' → pid'' ≠ pid0 := by
          intro d'' hd'' pid'' hpid''
          rw [hdict] at hpid''
          intro hcontra
          have hm1 : (d''.name, pid'') ∈ (w.nodeD nid).inputs :=
            alookup_mem hpid''
          have hm2 : (d.name, pid0) ∈ (w.nodeD nid).inputs :=
            alookup_mem hpid0
          have hnm : d''.name ≠ d.name := by
            intro hceq
            exact hnd.1 (hceq ▸ List.mem_map_of_mem PlugDoc.name hd'')
          exact hnm (congrArg Prod.fst
            (List.inj_on_of_nodup_map hdictnd hm1 hm2 (by simpa using hcontra)))
        exact (huntgt pid0 hpres).trans hval0
      · rw [← hdict] at hpid
        exact htgt d' htail pid hpid

theorem deserializeInputs_err (nid : NodeId) :
    ∀ (docs : List PlugDoc) (w : World),
      (∃ d ∈ docs, alookup (w.nodeD nid).inputs d.name = none) →
      ∃ k w₂, INode.deserializeInputs nid w docs =
        .error (.keyError k, w₂) := by
  intro docs
  induction docs with
  | nil => intro w h; obtain ⟨d, hd, _⟩ := h; cases hd
  | cons d ds ih =>
    intro w hex
    cases hlook : alookup (w.nodeD nid).inputs d.name with
    | none => exact ⟨d.name, w, by rw [INode.deserializeInputs, hlook]⟩
    | some pid =>
      obtain ⟨d', hd', hnone⟩ := hex
      rcases List.mem_cons.mp hd' with hhead | htail
      · rw [hhead, hlook] at hnone; cases hnone
      · have hdict : (setInputValue w pid d.value).nodeD nid = w.nodeD nid :=
          World.nodeD_congr (nodes_setInputValue w pid d.value) nid
        obtain ⟨k, w₂, hw₂⟩ := ih (setInputValue w pid d.value)
          ⟨d', htail, by rw [hdict]; exact hnone⟩
        exact ⟨k, w₂, by rw [INode.deserializeInputs, hlook]; exact hw₂⟩

/-! Derived upstream and downstream views. -/

theorem foldl_append_bind {α β : Type} (f : α → List β) :
    ∀ (l : List α) (init : List β),
      l.foldl (fun acc e => acc ++ f e) init = init ++ l.bind f := by
  intro l
  induction l with
  | nil => intro init; simp
  | cons x xs ih => intro init; simp [ih, List.append_assoc]

/-! Helpers for the two header assignments of `deserialize`. -/

theorem alookup_modifyNode_self {w : World} {nid : NodeId} {n : INode}
    (hn : alookup w.nodes nid = some n) (f : INode → INode) :
    alookup (w.modifyNode nid f).nodes nid = some (f n) := by
  simp [World.modifyNode, alookup_amodify, hn]

theorem nodeD_modifyNode_self {w : World} {nid : NodeId} {n : INode}
    (hn : alookup w.nodes nid = some n) (f : INode → INode) :
    (w.modifyNode nid f).nodeD nid = f n := by
  simp [World.nodeD_modifyNode, hn]

theorem nodeD_modifyNode_ne (w : World) {m nid : NodeId} (h : m ≠ nid)
    (f : INode → INode) : (w.modifyNode nid f).nodeD m = w.nodeD m := by
  simp [World.nodeD_modifyNode, h]

theorem World.plugD_congr {w w' : World} (h : w'.plugs = w.plugs)
    (q : PlugId) : w'.plugD q = w.plugD q := by
  simp [World.plugD, h]

theorem deserializeInputs_shapeOnly (nid : NodeId) :
    ∀ (docs : List PlugDoc) (w w' : World),
      INode.deserializeInputs nid w docs = .ok w' → ShapeOnly w w' := by
  intro docs
  induction docs with
  | nil =>
    intro w w' h
    rw [INode.deserializeInputs] at h
    cases h
    exact shapeOnly_refl w
  | cons d ds ih =>
    intro w w' h
    rw [INode.deserializeInputs] at h
    cases hlook : alookup (w.nodeD nid).inputs d.name with
    | none => rw [hlook] at h; cases h
    | some pid =>
      rw [hlook] at h
      exact shapeOnly_trans (shapeOnly_setInputValue w pid d.value) (ih _ _ h)

theorem deserializeInputs_untouched (nid : NodeId) :
    ∀ (docs : List PlugDoc) (w w' : World) (q : PlugId),
      INode.deserializeInputs nid w docs = .ok w' →
      (∀ d ∈ docs, ∀ pid, alookup (w.nodeD nid).inputs d.name = some pid →
        pid ≠ q) →
      (w'.plugD q).value = (w.plugD q).value := by
  intro docs
  induction docs with
  | nil =>
    intro w w' q h _
    rw [INode.deserializeInputs] at h
    cases h
    rfl
  | cons d ds ih =>
    intro w w' q h hq
    rw [INode.deserializeInputs] at h
    cases hlook : alookup (w.nodeD nid).inputs d.name with
    | none => rw [hlook] at h; cases h
    | some pid =>
      rw [hlook] at h
      have hdict : (setInputValue w pid d.value).nodeD nid = w.nodeD nid :=
        World.nodeD_congr (nodes_setInputValue w pid d.value) nid
      have hrest := ih (setInputValue w pid d.value) w' q h
        (fun d' hd' pid' hpid' => by
          rw [hdict] at hpid'
          exact hq d' (List.mem_cons_of_mem _ hd') pid' hpid')
      have hne : pid ≠ q := hq d (List.mem_cons_self _ _) pid hlook
      exact hrest.trans (setInputValue_value_ne (Ne.symm hne) d.value)

/-! Concrete instances used by the claim witnesses: a two-node world (node 0
feeding node 9 through one connection) together with a freshly constructed
copy of node 0's type (node 7, plugs 11–14), mirroring `NodeForTesting`
from the test fixtures. -/

def exN : INode :=
  { name := "NodeA", identifier := "NodeA-1",
    inputs := [("in1", 1), ("in2", 2)],
    outputs := [("out", 3), ("out2", 4)] }

def exM : INode :=
  { name := "NodeB", identifier := "NodeB-1",
    inputs := [("in1", 5)], outputs := [("out", 6)] }

def exF : INode :=
  { name := "NodeF", identifier := "NodeF-1",
    inputs := [("in1", 11), ("in2", 12)],
    outputs := [("out", 13), ("out2", 14)] }

def exW : World :=
  { plugs := [
      (1, { name := "in1", node := 0, isInput := true, value := some 2,
            is_dirty := true, connections := [] }),
      (2, { name := "in2", node := 0, isInput := true, value := some 3,
            is_dirty := false, connections := [] }),
      (3, { name := "out", node := 0, isInput := false, value := none,
            is_dirty := false, connections := [5] }),
      (4, { name := "out2", node := 0, isInput := false, value := none,
            is_dirty := false, connections := [] }),
      (5, { name := "in1", node := 9, isInput := true, value := none,
            is_dirty := false, connections := [3] }),
      (6, { name := "out", node := 9, isInput := false, value := none,
            is_dirty := false, connections := [] }),
      (11, { name := "in1", node := 7, isInput := true, value := none,
             is_dirty := false, connections := [] }),
      (12, { name := "in2", node := 7, isInput := true, value := none,
             is_dirty := false, connections := [] }),
      (13, { name := "out", node := 7, isInput := false, value := none,
             is_dirty := false, connections := [] }),
      (14, { name := "out2", node := 7, isInput := false, value := none,
             is_dirty := false, connections := [] })],
    nodes := [(0, exN), (9, exM), (7, exF)] }

def exC1 : Compute := fun _ => .ok (some [("out", some 6)])

def exC5 : Compute := fun _ => .error (.valueError 7)

def exC6 : Compute := fun _ => .ok (some [("bogus", some 1)])

/-- A node whose only output plug is connected back to its own input plug. -/
def exNloop : INode :=
  { name := "Loop", identifier := "Loop-1",
    inputs := [("in1", 1)], outputs := [("out", 2)] }

def exWloop : World :=
  { plugs := [
      (1, { name := "in1", node := 0, isInput := true, value := none,
            is_dirty := false, connections := [] }),
      (2, { name := "out", node := 0, isInput := false, value := none,
            is_dirty := false, connections := [1] })],
    nodes := [(0, exNloop)] }

def exCloop : Compute := fun _ => .ok (some [("out", some 5)])

/-- An entirely empty serialization document: every key is absent. -/
def exDocBad : NodeDoc := ⟨none, none, none, none, none, none⟩

/-- A well-formed document renaming node 0 and setting only `in1`. -/
def exDoc9 : NodeDoc :=
  ⟨some "m", some "c", some "NodeA2", some "NodeA2-id",
   some [⟨"in1", some 9⟩], none⟩

/-- Discriminator: is this result the spec's `ComputeError`? -/
def errIsComputeError : Except PyError ValMap → Bool
  | .error (.computeError _) => true
  | _ => false

/-- Discriminator: is this result the spec's `UnknownOutputError`? -/
def errIsUnknownOutput : Except PyError ValMap → Bool
  | .error (.unknownOutputError _) => true
  | _ => false

/-- Discriminator: is this result the spec's `SerializationError`? -/
def errIsSerialization : Except (PyError × World) World → Bool
  | .error (.serializationError _, _) => true
  | _ => false

/-! The claims. -/

/-- C2: a node's derived `is_dirty` is true exactly when at least one of its
input plugs carries the dirty flag, and it is a function of the input plugs
alone — mutating any plug that is not one of the node's inputs (in
particular, any output plug) leaves it unchanged. -/
theorem claim_C2 (w : World) (n : INode) (q : PlugId) (g : Plug → Plug)
    (hq : ∀ e ∈ n.inputs, e.2 ≠ q) :
    (INode.is_dirty w n = true ↔
      ∃ e ∈ n.inputs, (w.plugD e.2).is_dirty = true)
    ∧ INode.is_dirty (w.modifyPlug q g) n = INode.is_dirty w n := by
  constructor
  · simp [INode.is_dirty, List.any_eq_true]
  · rw [INode.is_dirty, INode.is_dirty]
    have haux : ∀ l : List (String × PlugId), (∀ e ∈ l, e.2 ≠ q) →
        l.any (fun e => ((w.modifyPlug q g).plugD e.2).is_dirty) =
        l.any (fun e => (w.plugD e.2).is_dirty) := by
      intro l hl
      induction l with
      | nil => rfl
      | cons x xs ih =>
        simp only [List.any_cons]
        rw [World.plugD_modifyPlug_ne w (hl x (List.mem_cons_self _ _)) g,
          ih (fun e he => hl e (List.mem_cons_of_mem _ he))]
    exact haux n.inputs hq

/-- Witness for C2 at a concrete world: node 0's dirtiness is reported from
its input plugs and is unaffected by mutating the unrelated plug 99. -/
theorem claim_C2_witness :
    (INode.is_dirty exW exN = true ↔
      ∃ e ∈ exN.inputs, (exW.plugD e.2).is_dirty = true)
    ∧ INode.is_dirty (exW.modifyPlug 99 (fun p => { p with is_dirty := true }))
        exN = INode.is_dirty exW exN :=
  claim_C2 exW exN 99 (fun p => { p with is_dirty := true }) (by decide)

/-- C3: invoking `on_input_plug_set_dirty` marks every plug directly
connected to one of the node's output plugs dirty, using the output plugs'
existing connections and without recomputing anything: no plug's value and
no node changes. -/
theorem claim_C3 (w : World) (nid : NodeId) (n : INode) (ip q : PlugId)
    (e : String × PlugId)
    (hn : alookup w.nodes nid = some n) (he : e ∈ n.outputs)
    (hq : q ∈ (w.plugD e.2).connections)
    (hqs : (alookup w.plugs q).isSome) :
    ((INode.on_input_plug_set_dirty w nid ip).plugD q).is_dirty = true
    ∧ (∀ r, ((INode.on_input_plug_set_dirty w nid ip).plugD r).value =
        (w.plugD r).value)
    ∧ (INode.on_input_plug_set_dirty w nid ip).nodes = w.nodes := by
  simp only [INode.on_input_plug_set_dirty, hn]
  exact ⟨hookFold_sets n.outputs w ⟨e, he, hq⟩ hqs,
    fun r => ((dirtyStep_hookFold n.outputs w).1.2.2 r).2.2.2.1,
    (dirtyStep_hookFold n.outputs w).1.1⟩

/-- Witness for C3: in the concrete world, node 0's hook dirties plug 5 (the
downstream input connected to output plug 3) and changes no value. -/
theorem claim_C3_witness :
    ((INode.on_input_plug_set_dirty exW 0 1).plugD 5).is_dirty = true
    ∧ (∀ r, ((INode.on_input_plug_set_dirty exW 0 1).plugD r).value =
        (exW.plugD r).value)
    ∧ (INode.on_input_plug_set_dirty exW 0 1).nodes = exW.nodes :=
  claim_C3 exW 0 exN 1 5 ("out", 3) (by decide) (by decide) (by decide)
    (by decide)

/-- C5 (amended): when the caller-supplied `compute` raises, `evaluate`
propagates that very exception unchanged to its caller — it is not wrapped
in a `ComputeError`, which does not exist in the code — and the world is
completely untouched: no output plug value is written and every input
plug's dirty flag is unchanged. -/
theorem claim_C5 (w : World) (n : INode) (compute : Compute) (e : PyError)
    (h : compute (INode.inputValues w n) = .error e) :
    INode.evaluate w n compute = (.error e, w) := by
  rw [INode.evaluate, h]

/-- Witness for C5 at a concrete world: a compute raising `valueError 7`
makes `evaluate` surface exactly that error with the world unchanged. -/
theorem claim_C5_witness :
    INode.evaluate exW exN exC5 = (.error (.valueError 7), exW) :=
  claim_C5 exW exN exC5 (.valueError 7) rfl

/-- Counterexample to C5 as stated: the failure is surfaced, but not as a
`ComputeError` — the original exception arrives unwrapped. -/
theorem claim_C5_cx :
    (INode.evaluate exW exN exC5).1 = .error (.valueError 7)
    ∧ errIsComputeError (INode.evaluate exW exN exC5).1 = false := by
  decide

/-- C10: a successful `evaluate` always leaves the node clean: the input
dirty flags are cleared after the output values are pushed, so even
re-dirtying caused by the node's own output writes (output wired back to
its own input) is erased before `evaluate` returns. -/
theorem claim_C10 (w : World) (n : INode) (compute : Compute)
    (outs : ValMap) (w' : World)
    (h : INode.evaluate w n compute = (.ok outs, w')) :
    INode.is_dirty w' n = false := by
  cases hres : compute (INode.inputValues w n) with
  | error e =>
    have hev : INode.evaluate w n compute = (.error e, w) := by
      rw [INode.evaluate, hres]
    rw [hev] at h
    simp at h
  | ok res =>
    cases hwo : INode.writeOutputs n w (res.getD []) with
    | error ew =>
      obtain ⟨e2, w2⟩ := ew
      have hev : INode.evaluate w n compute = (.error e2, w2) := by
        simp only [INode.evaluate, hres, hwo]
      rw [hev] at h
      simp at h
    | ok w1 =>
      have hev : INode.evaluate w n compute =
          (.ok (res.getD []), INode.clearInputs n w1) := by
        simp only [INode.evaluate, hres, hwo]
      rw [hev] at h
      have hw' : w' = INode.clearInputs n w1 := by
        have h2 := congrArg Prod.snd h
        simpa using h2.symm
      subst hw'
      rw [INode.is_dirty, List.any_eq_false]
      intro e he
      simp [clearInputs_clean n w1 e he]

/-- Witness for C10 on the self-loop world: node `Loop` wires its output
back into its own input; a successful `evaluate` still ends clean. -/
theorem claim_C10_witness :
    INode.is_dirty (INode.evaluate exWloop exNloop exCloop).2 exNloop
      = false :=
  claim_C10 exWloop exNloop exCloop [("out", some 5)]
    (INode.evaluate exWloop exNloop exCloop).2 (by decide)

/-- C8: `upstream_nodes` contains exactly the owners of plugs connected to
the node's input plugs, `downstream_nodes` exactly the owners of plugs
connected to its output plugs, and each such owner appears at most once
even with multiple connections between the same pair of nodes; both views
are computed from the connections. -/
theorem claim_C8 (w : World) (n : INode) (m : NodeId) :
    (m ∈ INode.upstream_nodes w n ↔
      ∃ e ∈ n.inputs, ∃ c ∈ (w.plugD e.2).connections, (w.plugD c).node = m)
    ∧ (INode.upstream_nodes w n).count m ≤ 1
    ∧ (m ∈ INode.downstream_nodes w n ↔
      ∃ e ∈ n.outputs, ∃ c ∈ (w.plugD e.2).connections, (w.plugD c).node = m)
    ∧ (INode.downstream_nodes w n).count m ≤ 1 := by
  refine ⟨?_, ?_, ?_, ?_⟩
  · rw [INode.upstream_nodes, foldl_append_bind]
    simp [List.mem_dedup, List.mem_bind]
  · exact List.nodup_iff_count_le_one.mp (List.nodup_dedup _) m
  · rw [INode.downstream_nodes, foldl_append_bind]
    simp [List.mem_dedup, List.mem_bind]
  · exact List.nodup_iff_count_le_one.mp (List.nodup_dedup _) m

/-- C6 (amended): when `compute` returns a mapping containing a key with no
matching output plug, `evaluate` fails at the first such key with the
built-in `KeyError` raised by the `self.outputs[name]` dict access — the
code defines no `UnknownOutputError`. -/
theorem claim_C6 (w : World) (n : INode) (compute : Compute)
    (pre rest : ValMap) (k : String) (v : Value)
    (hres : compute (INode.inputValues w n) =
      .ok (some (pre ++ (k, v) :: rest)))
    (hpre : ∀ e ∈ pre, (alookup n.outputs e.1).isSome)
    (hk : alookup n.outputs k = none) :
    (INode.evaluate w n compute).1 = .error (.keyError k) := by
  obtain ⟨w₂, hw₂⟩ := writeOutputs_err n pre k v rest w hpre hk
  have hev : INode.evaluate w n compute = (.error (.keyError k), w₂) := by
    simp only [INode.evaluate, hres, Option.getD_some, hw₂]
  rw [hev]

/-- Witness for C6 (amended): a compute returning the unknown key `bogus`
makes `evaluate` fail with `KeyError` for that key. -/
theorem claim_C6_witness :
    (INode.evaluate exW exN exC6).1 = .error (.keyError "bogus") :=
  claim_C6 exW exN exC6 [] [] "bogus" (some 1) rfl (by decide) (by decide)

/-- Counterexample to C6 as stated: the failure is a `KeyError`, not the
spec's `UnknownOutputError`. -/
theorem claim_C6_cx :
    (INode.evaluate exW exN exC6).1 = .error (.keyError "bogus")
    ∧ errIsUnknownOutput (INode.evaluate exW exN exC6).1 = false := by
  decide

/-- C7 (amended): `deserialize` on a malformed document — one missing
`name`, `identifier` or `inputs`, or naming an input plug the node does not
have — fails with the built-in `KeyError` of the offending dict access; the
code defines no `SerializationError`. -/
theorem claim_C7 (w : World) (nid : NodeId) (n : INode) (d : NodeDoc)
    (hn : alookup w.nodes nid = some n)
    (hmal : d.name = none ∨ d.identifier = none ∨ d.inputs = none ∨
      ∃ doc ∈ d.inputs.getD [], alookup n.inputs doc.name = none) :
    ∃ k w₂, INode.deserialize w nid d = .error (.keyError k, w₂) := by
  cases hnm : d.name with
  | none => exact ⟨"name", w, by simp [INode.deserialize, hnm]⟩
  | some nm =>
    cases hidf : d.identifier with
    | none =>
      exact ⟨"identifier", w.modifyNode nid (fun r => { r with name := nm }),
        by simp [INode.deserialize, hnm, hidf]⟩
    | some idf =>
      cases hdocs : d.inputs with
      | none =>
        exact ⟨"inputs",
          (w.modifyNode nid (fun r => { r with name := nm })).modifyNode nid
            (fun r => { r with identifier := idf }),
          by simp [INode.deserialize, hnm, hidf, hdocs]⟩
      | some docs =>
        rcases hmal with h | h | h | h
        · rw [hnm] at h; simp at h
        · rw [hidf] at h; simp at h
        · rw [hdocs] at h; simp at h
        · rw [hdocs] at h
          simp only [Option.getD_some] at h
          have hdict : ((((w.modifyNode nid
              (fun r => { r with name := nm })).modifyNode nid
              (fun r => { r with identifier := idf }))).nodeD nid).inputs
              = n.inputs := by
            rw [nodeD_modifyNode_self (alookup_modifyNode_self hn _) _]
          obtain ⟨doc, hdoc, hnone⟩ := h
          obtain ⟨k, w₂, hk⟩ := deserializeInputs_err nid docs _
            ⟨doc, hdoc, by rw [hdict]; exact hnone⟩
          exact ⟨k, w₂,
            by simp only [INode.deserialize, hnm, hidf, hdocs]; exact hk⟩

/-- Witness for C7 (amended): the empty document fails with a `KeyError`. -/
theorem claim_C7_witness :
    ∃ k w₂, INode.deserialize exW 0 exDocBad = .error (.keyError k, w₂) :=
  claim_C7 exW 0 exN exDocBad (by decide) (Or.inl rfl)

/-- Counterexample to C7 as stated: the failure on a document with no
`name` key is a `KeyError`, not the spec's `SerializationError`. -/
theorem claim_C7_cx :
    INode.deserialize exW 0 exDocBad = .error (.keyError "name", exW)
    ∧ errIsSerialization (INode.deserialize exW 0 exDocBad) = false := by
  decide

/-- C1: a successful `evaluate` reads every input plug's value into a
name→value mapping, hands it to the caller-supplied `compute`, writes each
returned entry into the output plug of the same name (output plugs absent
from the result keep their previous value), clears every input plug's
dirty flag, and returns the computed mapping; an empty or `None` result is
treated as "no outputs produced": nothing is written and the empty mapping
is returned. -/
theorem claim_C1 (w : World) (n : INode) (compute : Compute)
    (res : Option ValMap)
    (hres : compute (INode.inputValues w n) = .ok res)
    (hWF : NodeWF w n)
    (hkeys : ∀ e ∈ res.getD [], (alookup n.outputs e.1).isSome)
    (hnd : ((res.getD []).map Prod.fst).Nodup) :
    ∃ w', INode.evaluate w n compute = (.ok (res.getD []), w')
      ∧ (∀ e ∈ n.inputs, (w'.plugD e.2).is_dirty = false)
      ∧ (∀ e ∈ n.outputs,
          (∀ v, alookup (res.getD []) e.1 = some v →
            (w'.plugD e.2).value = v)
          ∧ (alookup (res.getD []) e.1 = none →
            (w'.plugD e.2).value = (w.plugD e.2).value))
      ∧ (res.getD [] = [] → ∀ q, (w'.plugD q).value = (w.plugD q).value) := by
  obtain ⟨w1, hw1⟩ := writeOutputs_ok n (res.getD []) w hkeys
  have hev : INode.evaluate w n compute =
      (.ok (res.getD []), INode.clearInputs n w1) := by
    simp only [INode.evaluate, hres, hw1]
  refine ⟨INode.clearInputs n w1, hev, clearInputs_clean n w1, ?_, ?_⟩
  · intro e he
    have hv := writeOutputs_values n (res.getD []) w w1 hw1 hWF hnd e he
    have hpres : ((INode.clearInputs n w1).plugD e.2).value =
        (w1.plugD e.2).value :=
      ((dirtyOnly_clearInputs n w1).2.2 e.2).2.2.2.1
    exact ⟨fun v hvv => hpres.trans (hv.1 v hvv),
      fun hnone => hpres.trans (hv.2 hnone)⟩
  · intro hempty q
    rw [hempty, INode.writeOutputs] at hw1
    injection hw1 with hww
    rw [← hww]
    exact ((dirtyOnly_clearInputs n w).2.2 q).2.2.2.1

/-- Witness for C1 at a concrete world: node 0's compute produces
`{out: 6}`; `out` is written, `out2` keeps its value, all inputs end
clean, and the mapping is returned. -/
theorem claim_C1_witness :
    ∃ w', INode.evaluate exW exN exC1 = (.ok [("out", some 6)], w')
      ∧ (∀ e ∈ exN.inputs, (w'.plugD e.2).is_dirty = false)
      ∧ (∀ e ∈ exN.outputs,
          (∀ v, alookup [("out", some 6)] e.1 = some v →
            (w'.plugD e.2).value = v)
          ∧ (alookup [("out", some 6)] e.1 = none →
            (w'.plugD e.2).value = (exW.plugD e.2).value))
      ∧ ([("out", some 6)] = ([] : ValMap) →
          ∀ q, (w'.plugD q).value = (exW.plugD q).value) := by
  simpa using claim_C1 exW exN exC1 (some [("out", some 6)]) rfl (by decide)
    (by decide) (by decide)

/-- C9: a successful `deserialize` changes only the node's `name`, its
`identifier`, and the values (and, through the setter, dirty flags) of the
input plugs named in the document: no plug is created or removed, no
connection and no plug identity changes, the node's input and output plug
dicts are untouched, other nodes are untouched, every output plug keeps
its value, and every input plug not named in the document keeps its
value. -/
theorem claim_C9 (w : World) (nid : NodeId) (n : INode) (d : NodeDoc)
    (w' : World)
    (hn : alookup w.nodes nid = some n)
    (hok : INode.deserialize w nid d = .ok w')
    (hdisj : ∀ e ∈ n.outputs, ∀ e' ∈ n.inputs, e.2 ≠ e'.2)
    (hpidnd : (n.inputs.map Prod.snd).Nodup) :
    (w'.plugs.map Prod.fst = w.plugs.map Prod.fst)
    ∧ (∀ q, (w'.plugD q).connections = (w.plugD q).connections
        ∧ (w'.plugD q).name = (w.plugD q).name
        ∧ (w'.plugD q).isInput = (w.plugD q).isInput)
    ∧ (w'.nodeD nid).inputs = n.inputs
    ∧ (w'.nodeD nid).outputs = n.outputs
    ∧ (w'.nodes.map Prod.fst = w.nodes.map Prod.fst)
    ∧ (∀ m, m ≠ nid → w'.nodeD m = w.nodeD m)
    ∧ (∀ e ∈ n.outputs, (w'.plugD e.2).value = (w.plugD e.2).value)
    ∧ (∀ e ∈ n.inputs, (∀ doc ∈ d.inputs.getD [], doc.name ≠ e.1) →
        (w'.plugD e.2).value = (w.plugD e.2).value) := by
  cases hnm : d.name with
  | none =>
    have hev : INode.deserialize w nid d = .error (.keyError "name", w) := by
      simp [INode.deserialize, hnm]
    rw [hev] at hok
    simp at hok
  | some nm =>
  cases hidf : d.identifier with
  | none =>
    have hev : INode.deserialize w nid d = .error (.keyError "identifier",
        w.modifyNode nid (fun r => { r with name := nm })) := by
      simp [INode.deserialize, hnm, hidf]
    rw [hev] at hok
    simp at hok
  | some idf =>
  cases hdocs : d.inputs with
  | none =>
    have hev : INode.deserialize w nid d = .error (.keyError "inputs",
        (w.modifyNode nid (fun r => { r with name := nm })).modifyNode nid
          (fun r => { r with identifier := idf })) := by
      simp [INode.deserialize, hnm, hidf, hdocs]
    rw [hev] at hok
    simp at hok
  | some docs =>
    have hev : INode.deserialize w nid d = INode.deserializeInputs nid
        ((w.modifyNode nid (fun r => { r with name := nm })).modifyNode nid
          (fun r => { r with identifier := idf })) docs := by
      simp only [INode.deserialize, hnm, hidf, hdocs]
    rw [hev] at hok
    have hso := deserializeInputs_shapeOnly nid docs _ w' hok
    have hdictD : (((w.modifyNode nid
        (fun r => { r with name := nm })).modifyNode nid
        (fun r => { r with identifier := idf })).nodeD nid) =
        { n with name := nm, identifier := idf } := by
      rw [nodeD_modifyNode_self (alookup_modifyNode_self hn _) _]
    have htgt : ∀ (q : PlugId), (∀ e' ∈ n.inputs, e'.2 ≠ q) →
        (w'.plugD q).value = (w.plugD q).value := by
      intro q hq
      have hres := deserializeInputs_untouched nid docs
        ((w.modifyNode nid (fun r => { r with name := nm })).modifyNode nid
          (fun r => { r with identifier := idf })) w' q hok
        (by
          intro d' hd' pid hpid
          rw [hdictD] at hpid
          exact hq (d'.name, pid) (alookup_mem hpid))
      exact hres
    refine ⟨hso.2.1, ?_, ?_, ?_, ?_, ?_, ?_, ?_⟩
    · intro q
      exact ⟨(hso.2.2 q).2.2.2, (hso.2.2 q).1, (hso.2.2 q).2.2.1⟩
    · rw [World.nodeD_congr hso.1 nid, hdictD]
    · rw [World.nodeD_congr hso.1 nid, hdictD]
    · rw [hso.1]
      simp only [World.modifyNode]
      exact (keys_amodify _ _ _).trans (keys_amodify _ _ _)
    · intro m hm
      rw [World.nodeD_congr hso.1 m, nodeD_modifyNode_ne _ hm _,
        nodeD_modifyNode_ne _ hm _]
    · intro e he
      exact htgt e.2 (fun e' he' => Ne.symm (hdisj e he e' he'))
    · intro e he hnotnamed
      simp only [hdocs, Option.getD_some] at hnotnamed
      have hres := deserializeInputs_untouched nid docs
        ((w.modifyNode nid (fun r => { r with name := nm })).modifyNode nid
          (fun r => { r with identifier := idf })) w' e.2 hok
        (by
          intro d' hd' pid hpid
          rw [hdictD] at hpid
          intro hcontra
          have hm1 : (d'.name, pid) ∈ n.inputs := alookup_mem hpid
          have heq := List.inj_on_of_nodup_map hpidnd hm1 he
            (by simpa using hcontra)
          exact hnotnamed d' hd' (congrArg Prod.fst heq))
      exact hres

/-- Witness for C9: deserializing a document that renames node 0 and sets
only `in1` leaves the structure, the output plugs and `in2` untouched. -/
theorem claim_C9_witness :
    (((INode.deserialize exW 0 exDoc9).toOption.getD exW).plugs.map Prod.fst
      = exW.plugs.map Prod.fst)
    ∧ (∀ q, (((INode.deserialize exW 0 exDoc9).toOption.getD
          exW).plugD q).connections = (exW.plugD q).connections
        ∧ (((INode.deserialize exW 0 exDoc9).toOption.getD
          exW).plugD q).name = (exW.plugD q).name
        ∧ (((INode.deserialize exW 0 exDoc9).toOption.getD
          exW).plugD q).isInput = (exW.plugD q).isInput)
    ∧ (((INode.deserialize exW 0 exDoc9).toOption.getD exW).nodeD 0).inputs
        = exN.inputs
    ∧ (((INode.deserialize exW 0 exDoc9).toOption.getD exW).nodeD 0).outputs
        = exN.outputs
    ∧ (((INode.deserialize exW 0 exDoc9).toOption.getD exW).nodes.map
        Prod.fst = exW.nodes.map Prod.fst)
    ∧ (∀ m, m ≠ 0 → ((INode.deserialize exW 0 exDoc9).toOption.getD
        exW).nodeD m = exW.nodeD m)
    ∧ (∀ e ∈ exN.outputs, (((INode.deserialize exW 0 exDoc9).toOption.getD
        exW).plugD e.2).value = (exW.plugD e.2).value)
    ∧ (∀ e ∈ exN.inputs, (∀ doc ∈ exDoc9.inputs.getD [], doc.name ≠ e.1) →
        (((INode.deserialize exW 0 exDoc9).toOption.getD
          exW).plugD e.2).value = (exW.plugD e.2).value) :=
  claim_C9 exW 0 exN exDoc9 ((INode.deserialize exW 0 exDoc9).toOption.getD
    exW) (by decide) (by decide) (by decide) (by decide)

/-- C4: `deserialize (serialize N)` applied to a freshly constructed node
of the same concrete type (same input plug names) succeeds and reproduces
N's `name`, `identifier`, and every input plug value on the fresh node. -/
theorem claim_C4 (w : World) (nid mid : NodeId) (n m : INode)
    (mod cls : String)
    (hn : alookup w.nodes nid = some n)
    (hm : alookup w.nodes mid = some m)
    (hpname : ∀ e ∈ n.inputs, (w.plugD e.2).name = e.1)
    (hkeys : m.inputs.map Prod.fst = n.inputs.map Prod.fst)
    (hknd : (n.inputs.map Prod.fst).Nodup)
    (hmpid : (m.inputs.map Prod.snd).Nodup)
    (hmpres : ∀ e ∈ m.inputs, (alookup w.plugs e.2).isSome) :
    ∃ w', INode.deserialize w mid (INode.serialize w n mod cls) = .ok w'
      ∧ (w'.nodeD mid).name = n.name
      ∧ (w'.nodeD mid).identifier = n.identifier
      ∧ ∀ e' ∈ m.inputs, ∀ e ∈ n.inputs, e'.1 = e.1 →
          (w'.plugD e'.2).value = (w.plugD e.2).value := by
  have hmknd : (m.inputs.map Prod.fst).Nodup := by rw [hkeys]; exact hknd
  have hdictD : ((((w.modifyNode mid
      (fun r => { r with name := n.name })).modifyNode mid
      (fun r => { r with identifier := n.identifier }))).nodeD mid) =
      { m with name := n.name, identifier := n.identifier } := by
    rw [nodeD_modifyNode_self (alookup_modifyNode_self hm _) _]
  have hdocsname : ∀ doc ∈ n.inputs.map
      (fun e => ((w.plugD e.2).serialize : PlugDoc)),
      ∃ e ∈ n.inputs, doc.name = e.1 ∧ doc.value = (w.plugD e.2).value := by
    intro doc hdoc
    obtain ⟨e, he, hde⟩ := List.mem_map.mp hdoc
    exact ⟨e, he, by rw [← hde]; exact hpname e he, by rw [← hde]; rfl⟩
  obtain ⟨w', hok, hso, huntgt, htgt⟩ := deserializeInputs_spec mid
    (n.inputs.map (fun e => ((w.plugD e.2).serialize : PlugDoc)))
    ((w.modifyNode mid (fun r => { r with name := n.name })).modifyNode mid
      (fun r => { r with identifier := n.identifier }))
    (by
      intro doc hdoc
      obtain ⟨e, he, hde, _⟩ := hdocsname doc hdoc
      rw [hdictD]
      simp only [hde]
      rw [alookup_isSome_of_keys_eq hkeys e.1, alookup_of_mem_nodup hknd he]
      rfl)
    (by
      intro doc hdoc pid hpid
      rw [hdictD] at hpid
      exact hmpres (doc.name, pid) (alookup_mem hpid))
    (by
      rw [List.map_map]
      have hmapeq : n.inputs.map (PlugDoc.name ∘
          (fun e => ((w.plugD e.2).serialize : PlugDoc))) =
          n.inputs.map Prod.fst :=
        List.map_congr_left (fun e he => hpname e he)
      rw [hmapeq]
      exact hknd)
    (by rw [hdictD]; exact hmpid)
  refine ⟨w', hok, ?_, ?_, ?_⟩
  · rw [World.nodeD_congr hso.1 mid, hdictD]
  · rw [World.nodeD_congr hso.1 mid, hdictD]
  · intro e' he' e he heq
    have hd : ((w.plugD e.2).serialize : PlugDoc) ∈ n.inputs.map
        (fun e => ((w.plugD e.2).serialize : PlugDoc)) :=
      List.mem_map_of_mem _ he
    have hlook : alookup (((((w.modifyNode mid
        (fun r => { r with name := n.name })).modifyNode mid
        (fun r => { r with identifier := n.identifier }))).nodeD mid)).inputs
        ((w.plugD e.2).serialize : PlugDoc).name = some e'.2 := by
      rw [hdictD]
      have hnm : ((w.plugD e.2).serialize : PlugDoc).name = e'.1 := by
        rw [heq]; exact hpname e he
      rw [hnm]
      exact alookup_of_mem_nodup hmknd he'
    exact htgt _ hd e'.2 hlook

/-- Witness for C4: the round trip from node 0 onto the freshly
constructed node 7 reproduces name, identifier and both input values. -/
theorem claim_C4_witness :
    ∃ w', INode.deserialize exW 7
        (INode.serialize exW exN "flowpipe.node" "NodeA") = .ok w'
      ∧ (w'.nodeD 7).name = exN.name
      ∧ (w'.nodeD 7).identifier = exN.identifier
      ∧ ∀ e' ∈ exF.inputs, ∀ e ∈ exN.inputs, e'.1 = e.1 →
          (w'.plugD e'.2).value = (exW.plugD e.2).value :=
  claim_C4 exW 0 7 exN exF "flowpipe.node" "NodeA" (by decide) (by decide)
    (by decide) (by decide) (by decide) (by decide) (by decide)

end Flowpipe
